import Mathlib

/-!
Verification of the notabot event-driven workflow interpreter.

This file gives a shallow embedding of the core of the notabot repository:
the template-interpolation engine (src/utils/interpolation.rs), the workflow
runtime (src/executor/runtime.rs), the directory wildcard matcher
(src/sources/directory.rs), the file-source polling loop (src/sources/file.rs),
the TCP connection handler (src/sources/tcp.rs) and the source-orchestration
layer (src/sources/mod.rs), together with theorems settling the specification
claims about them.

Modelling conventions:
- Rust strings are lists of characters (`Str`); the delimiter search in
  interpolation.rs works on UTF-8 bytes, but since both delimiters are ASCII
  and ASCII bytes never occur inside a multi-byte UTF-8 character, the
  character-level search coincides with the byte-level one.
- `HashMap`/`BTreeMap` values are association lists with lookup/insert
  functions mirroring `get`/`insert`.
- `serde_json::Value` is the inductive `Json`; numbers are modelled as
  integers (float formatting is outside the scope of the claims), and
  `Value::to_string()` is modelled by `renderJson`, the compact serialization.
- I/O performed by the source loops (file metadata, reads, channel sends,
  socket writes) is modelled by per-iteration observation records supplied by
  the environment; the loop bodies themselves are translated from the source.
-/

namespace Notabot

/-- Rust strings are modelled as lists of characters. -/
abbrev Str := List Char

/-- Model of Rust `char::is_whitespace` (agrees on ASCII input). -/
def isWs (c : Char) : Bool := c.isWhitespace

/-- Model of Rust `str::trim`: drop leading and trailing whitespace. -/
def trimStr (s : Str) : Str :=
  ((s.dropWhile isWs).reverse.dropWhile isWs).reverse

/-- Association-list model of `HashMap`/`BTreeMap` lookup (`map.get(k)`). -/
def lookupAssoc {α : Type} : List (Str × α) → Str → Option α
  | [], _ => none
  | (k₁, v) :: rest, k => if k₁ = k then some v else lookupAssoc rest k

/-- Association-list model of `HashMap::insert` (overwrites an existing key). -/
def insertAssoc {α : Type} : List (Str × α) → Str → α → List (Str × α)
  | [], k, v => [(k, v)]
  | (k₁, v₁) :: rest, k, v =>
    if k₁ = k then (k, v) :: rest else (k₁, v₁) :: insertAssoc rest k v

/-- Model of `serde_json::Value`.  Numbers are modelled as integers. -/
inductive Json : Type where
  | null : Json
  | bool (b : Bool) : Json
  | num (n : Int) : Json
  | str (s : Str) : Json
  | arr (elems : List Json) : Json
  | obj (fields : List (Str × Json)) : Json

/-- Decimal digits of a natural number, most significant first. -/
def natToStr (n : Nat) : Str := Nat.toDigits 10 n

/-- Decimal rendering of an integer, as `serde_json` prints integer numbers. -/
def intToStr (n : Int) : Str :=
  if n < 0 then '-' :: natToStr n.natAbs else natToStr n.natAbs

/-- The JSON escape of one character inside a string literal, as produced by
`serde_json` (quote, backslash, and control characters are escaped). -/
def escapeJsonChar (c : Char) : Str :=
  if c = '"' then ['\\', '"']
  else if c = '\\' then ['\\', '\\']
  else if c = '\x08' then ['\\', 'b']
  else if c = '\x09' then ['\\', 't']
  else if c = '\x0a' then ['\\', 'n']
  else if c = '\x0c' then ['\\', 'f']
  else if c = '\x0d' then ['\\', 'r']
  else if c.toNat < 0x20 then
    ['\\', 'u', '0', '0', (Nat.toDigits 16 c.toNat).headD '0',
      (Nat.toDigits 16 c.toNat).getLastD '0']
  else [c]

/-- JSON string-body escaping, character by character. -/
def escapeJsonChars : Str → Str
  | [] => []
  | c :: rest => escapeJsonChar c ++ escapeJsonChars rest

mutual

/-- Model of `serde_json::Value::to_string()`: the compact JSON serialization
(`null`, `true`/`false`, decimal numbers, quoted strings, `[..]`, objects). -/
def renderJson : Json → Str
  | Json.null => ['n', 'u', 'l', 'l']
  | Json.bool true => ['t', 'r', 'u', 'e']
  | Json.bool false => ['f', 'a', 'l', 's', 'e']
  | Json.num n => intToStr n
  | Json.str s => '"' :: (escapeJsonChars s ++ ['"'])
  | Json.arr elems => '[' :: (renderJsonArr elems ++ [']'])
  | Json.obj fields => '\x7b' :: (renderJsonObj fields ++ ['\x7d'])

/-- Comma-separated rendering of array elements. -/
def renderJsonArr : List Json → Str
  | [] => []
  | [j] => renderJson j
  | j :: j₂ :: rest => renderJson j ++ ',' :: renderJsonArr (j₂ :: rest)

/-- Comma-separated rendering of object fields. -/
def renderJsonObj : List (Str × Json) → Str
  | [] => []
  | [(k, j)] => ('"' :: (escapeJsonChars k ++ ['"', ':'])) ++ renderJson j
  | (k, j) :: f₂ :: rest =>
    (('"' :: (escapeJsonChars k ++ ['"', ':'])) ++ renderJson j)
      ++ ',' :: renderJsonObj (f₂ :: rest)

end

/-- The globals table: `BTreeMap<String, Value>` as an association list. -/
abbrev Globals := List (Str × Json)

/-- The per-run variable scope: `HashMap<String, String>` as an association
list. -/
abbrev Vars := List (Str × Str)

/-- Model of Rust `str::split(c)`: splits at every occurrence of `c`, keeping
empty pieces (so the result is always non-empty). -/
def splitOnChar (c : Char) : Str → List Str
  | [] => [[]]
  | a :: rest =>
    if a = c then [] :: splitOnChar c rest
    else
      match splitOnChar c rest with
      | h :: t => (a :: h) :: t
      | [] => [[a]]

/-- Model of `find_subslice` from interpolation.rs for a doubled-character
needle `cc`: returns the text before the first occurrence and the text after
it, or `none` when the needle does not occur. -/
def splitFirst2 (c : Char) : Str → Option (Str × Str)
  | [] => none
  | [_] => none
  | a :: b :: rest =>
    if a = c ∧ b = c then some ([], rest)
    else
      match splitFirst2 c (b :: rest) with
      | some (pre, post) => some (a :: pre, post)
      | none => none

/-- The opening interpolation delimiter, two left braces. -/
def openDelim : Str := ['\x7b', '\x7b']

/-- The closing interpolation delimiter, two right braces. -/
def closeDelim : Str := ['\x7d', '\x7d']

/-- Path walk of `lookup_global`: descend through JSON objects along the
remaining dot segments, trimming each segment; any non-object intermediate
value makes the lookup fail. -/
def globalPathWalk : Json → List Str → Option Json
  | cur, [] => some cur
  | cur, seg :: rest =>
    match cur with
    | Json.obj fields =>
      match lookupAssoc fields (trimStr seg) with
      | some nxt => globalPathWalk nxt rest
      | none => none
    | _ => none

/-- Resolution part of `lookup_global` (interpolation.rs): the first dot
segment indexes the globals table, the remaining segments descend through
nested JSON objects. -/
def resolveGlobalPath (globals : Globals) (path : Str) : Option Json :=
  match splitOnChar '.' path with
  | [] => none
  | first :: rest =>
    match lookupAssoc globals (trimStr first) with
    | some v => globalPathWalk v rest
    | none => none

/-- Rendering part of `lookup_global`: a JSON string contributes its contents
literally, any other value its compact JSON serialization. -/
def jsonToDisplayString : Json → Str
  | Json.str s => s
  | v => renderJson v

/-- Model of `lookup_global` (interpolation.rs): resolve the dotted path, then
render the resolved value. -/
def lookupGlobal (globals : Globals) (path : Str) : Option Str :=
  (resolveGlobalPath globals path).map jsonToDisplayString

/-- Model of Rust `str::strip_prefix` for a single-character prefix. -/
def stripPrefixChar (c : Char) : Str → Option Str
  | [] => none
  | a :: rest => if a = c then some rest else none

/-- The token-replacement step of `interpolate_string`: given the raw token
text between the delimiters, produce the replacement.  Empty tokens, unknown
variables and unknown globals reproduce the original token text together with
its delimiters. -/
def resolveToken (vars : Vars) (globals : Globals) (raw : Str) : Str :=
  let token := trimStr raw
  if token = [] then openDelim ++ raw ++ closeDelim
  else
    match stripPrefixChar '@' token with
    | some stripped =>
      match lookupGlobal globals (trimStr stripped) with
      | some s => s
      | none => openDelim ++ raw ++ closeDelim
    | none =>
      match lookupAssoc vars token with
      | some v => v
      | none => openDelim ++ raw ++ closeDelim

/-- Model of `interpolate_string` (interpolation.rs): scan for `\x7b\x7b`,
find the matching `\x7d\x7d`, replace the token, and continue after it; an
unterminated opening delimiter copies the rest of the input verbatim. -/
def interpolateString (template : Str) (vars : Vars) (globals : Globals) :
    Str :=
  match h₁ : splitFirst2 '\x7b' template with
  | none => template
  | some (pre, afterOpen) =>
    match h₂ : splitFirst2 '\x7d' afterOpen with
    | none => template
    | some (raw, rest) =>
      pre ++ resolveToken vars globals raw ++ interpolateString rest vars globals
termination_by template.length
decreasing_by
  have key : ∀ (c : Char) (s pre post : Str),
      splitFirst2 c s = some (pre, post) →
      s.length = pre.length + 2 + post.length := by
    intro c s
    induction s with
    | nil => intro pre post h; simp [splitFirst2] at h
    | cons a rest ih =>
      intro pre post h
      cases rest with
      | nil => simp [splitFirst2] at h
      | cons b rest₂ =>
        rw [splitFirst2] at h
        by_cases hc : a = c ∧ b = c
        · simp [hc] at h
          obtain ⟨h₃, h₄⟩ := h
          subst h₃; subst h₄
          simp
          omega
        · simp [hc] at h
          cases h₃ : splitFirst2 c (b :: rest₂) with
          | none => rw [h₃] at h; simp at h
          | some pp =>
            obtain ⟨pre₂, post₂⟩ := pp
            rw [h₃] at h
            simp at h
            obtain ⟨h₄, h₅⟩ := h
            subst h₄; subst h₅
            have := ih _ _ h₃
            simp at this ⊢
            omega
  have e₁ := key _ _ _ _ h₁
  have e₂ := key _ _ _ _ h₂
  omega

/-- Decidable test used to state the spec property "contains no delimiter
pair": there is an opening `\x7b\x7b` with a closing `\x7d\x7d` somewhere
after it. -/
def hasDelimPair (s : Str) : Bool :=
  match splitFirst2 '\x7b' s with
  | none => false
  | some (_, afterOpen) => (splitFirst2 '\x7d' afterOpen).isSome

/-- One piece of a scanned template: literal text, or the raw text of one
delimited token. -/
inductive Piece : Type where
  | lit (s : Str) : Piece
  | tok (raw : Str) : Piece

/-- The scanning structure of `interpolate_string`, separated from
substitution: the decomposition of a template into literal pieces and raw
tokens.  It depends only on the template, never on the variable scope or the
globals table. -/
def parseTemplate (template : Str) : List Piece :=
  match h₁ : splitFirst2 '\x7b' template with
  | none => [Piece.lit template]
  | some (pre, afterOpen) =>
    match h₂ : splitFirst2 '\x7d' afterOpen with
    | none => [Piece.lit template]
    | some (raw, rest) => Piece.lit pre :: Piece.tok raw :: parseTemplate rest
termination_by template.length
decreasing_by
  have key : ∀ (c : Char) (s pre post : Str),
      splitFirst2 c s = some (pre, post) →
      s.length = pre.length + 2 + post.length := by
    intro c s
    induction s with
    | nil => intro pre post h; simp [splitFirst2] at h
    | cons a rest ih =>
      intro pre post h
      cases rest with
      | nil => simp [splitFirst2] at h
      | cons b rest₂ =>
        rw [splitFirst2] at h
        by_cases hc : a = c ∧ b = c
        · simp [hc] at h
          obtain ⟨h₃, h₄⟩ := h
          subst h₃; subst h₄
          simp
          omega
        · simp [hc] at h
          cases h₃ : splitFirst2 c (b :: rest₂) with
          | none => rw [h₃] at h; simp at h
          | some pp =>
            obtain ⟨pre₂, post₂⟩ := pp
            rw [h₃] at h
            simp at h
            obtain ⟨h₄, h₅⟩ := h
            subst h₄; subst h₅
            have := ih _ _ h₃
            simp at this ⊢
            omega
  have e₁ := key _ _ _ _ h₁
  have e₂ := key _ _ _ _ h₂
  omega

/-- Substitution applied to one scanned piece: literal text is copied, a raw
token goes through the token-replacement step. -/
def renderPiece (vars : Vars) (globals : Globals) : Piece → Str
  | Piece.lit s => s
  | Piece.tok raw => resolveToken vars globals raw

/-- Concatenation of the substituted pieces. -/
def renderPieces (vars : Vars) (globals : Globals) : List Piece → Str
  | [] => []
  | p :: rest => renderPiece vars globals p ++ renderPieces vars globals rest

/-! Wildcard matcher of the directory source (src/sources/directory.rs). -/

/-- Model of Rust `str::starts_with`. -/
def startsWithSeg : Str → Str → Bool
  | [], _ => true
  | _ :: _, [] => false
  | a :: as₁, b :: bs => if a = b then startsWithSeg as₁ bs else false

/-- Model of Rust `str::ends_with`: the suffix read backwards is a prefix of
the text read backwards. -/
def endsWithSeg (suf s : Str) : Bool :=
  startsWithSeg suf.reverse s.reverse

/-- Model of `remainder.find(seg)` followed by slicing past the found
occurrence: text after the leftmost occurrence of `seg`, or `none`. -/
def dropAfterFirst (seg : Str) : Str → Option Str
  | [] => if startsWithSeg seg [] then some [] else none
  | c :: r =>
    if startsWithSeg seg (c :: r) then some (List.drop seg.length (c :: r))
    else dropAfterFirst seg r

/-- Model of Rust `str::contains` for the final wildcard segment. -/
def containsSeg (seg s : Str) : Bool :=
  (dropAfterFirst seg s).isSome

/-- The `while parts.len() > 1` loop of `simple_pattern_match`: consume each
intermediate segment at its leftmost occurrence in the remainder; returns the
remaining parts (at most one) and the remaining text, or `none` when a segment
does not occur. -/
def consumeMiddle : List Str → Str → Option (List Str × Str)
  | [], rem => some ([], rem)
  | [p], rem => some ([p], rem)
  | seg :: p₂ :: rest, rem =>
    match dropAfterFirst seg rem with
    | some rem₂ => consumeMiddle (p₂ :: rest) rem₂
    | none => none

/-- The tail of `simple_pattern_match` after the prefix segment has been
checked: the intermediate-segment loop followed by the last-segment check. -/
def matchTail (startsStar endsStar : Bool) (parts : List Str)
    (remainder : Str) : Bool :=
  match consumeMiddle parts remainder with
  | none => false
  | some (partsLeft, rem) =>
    match partsLeft with
    | last :: _ => if endsStar = false then endsWithSeg last rem else containsSeg last rem
    | [] => startsStar || endsStar || rem.isEmpty

/-- Model of Rust `str::starts_with(char)`. -/
def startsWithChar (c : Char) : Str → Bool
  | [] => false
  | a :: _ => if a = c then true else false

/-- Model of Rust `str::ends_with(char)`: the last character is `c`. -/
def endsWithChar (c : Char) (s : Str) : Bool :=
  startsWithChar c s.reverse

/-- The boundary-empty trimming of `simple_pattern_match`: remove the first
part when it is empty and the pattern starts with `*`, and the last part when
it is empty and the pattern ends with `*`. -/
def trimBoundaryParts (startsStar endsStar : Bool) (parts : List Str) :
    List Str :=
  let parts₁ := if startsStar then
      (match parts with
       | first :: rest => if first = [] then rest else parts
       | [] => parts)
    else parts
  if endsStar then
    (match parts₁.getLast? with
     | some last => if last = [] then parts₁.dropLast else parts₁
     | none => parts₁)
  else parts₁

/-- Model of `simple_pattern_match` (directory.rs): the small glob-like
matcher where `*` matches any substring, translated phase by phase: the two
early returns, the split on `*`, the boundary-empty trimming, the anchored
prefix check, the intermediate loop and the last-segment check. -/
def simplePatternMatch (text pattern : Str) : Bool :=
  if pattern = ['*'] then true
  else if pattern.contains '*' = false then text == pattern
  else
    let parts := splitOnChar '*' pattern
    if parts = [] then true
    else
      let startsStar := startsWithChar '*' pattern
      let endsStar := endsWithChar '*' pattern
      let parts₂ := trimBoundaryParts startsStar endsStar parts
      if startsStar then matchTail startsStar endsStar parts₂ text
      else
        match parts₂ with
        | first :: restParts =>
          if startsWithSeg first text then
            matchTail startsStar endsStar restParts (List.drop first.length text)
          else false
        | [] => matchTail startsStar endsStar [] text

/-- Reference wildcard semantics, written from the specification's words:
`*` matches any (possibly empty) substring, every other character matches
itself (case-sensitively), and matching is anchored at both ends. -/
def specGlobMatch (pattern text : Str) : Bool :=
  match pattern, text with
  | [], t => t.isEmpty
  | p :: ps, t =>
    if p = '*' then
      specGlobMatch ps t ||
        (match t with
         | [] => false
         | _ :: ts => specGlobMatch (p :: ps) ts)
    else
      match t with
      | [] => false
      | c :: ts => if p = c then specGlobMatch ps ts else false
termination_by (text.length, pattern.length)

/-- Helper used in proofs only: rebuild a pattern from its star-separated
parts (`intercalate "*"`). -/
def joinWithStar : List Str → Str
  | [] => []
  | [p] => p
  | p :: q :: rest => p ++ '*' :: joinWithStar (q :: rest)

/-! The workflow runtime (src/executor/runtime.rs). -/

/-- Mouse buttons (config/models.rs). -/
inductive MouseButton : Type where
  | left | middle | right

/-- Logging levels (config/models.rs). -/
inductive LogLevel : Type where
  | trace | debug | info | warn | error

/-- A screen rectangle (config/models.rs). -/
structure Rect : Type where
  x : Int
  y : Int
  width : Int
  height : Int

/-- Model of `ActionDef` (config/models.rs): the closed sum of action kinds. -/
inductive ActionDef : Type where
  | sequence (steps : List ActionDef)
  | ref (name : Str)
  | mouseMove (x y : Int)
  | mouseClick (button : MouseButton) (count : Option Nat)
  | mouseScroll (deltaX deltaY : Int)
  | keySeq (text : Str)
  | typeText (text : Str)
  | sleepMs (ms : Nat)
  | sleepRandMs (minMs maxMs : Nat)
  | focusWindow (titleContains : Str)
  | setVar (name value : Str)
  | conditional (whenS equalsS : Str) (thenA : ActionDef) (elseA : Option ActionDef)
  | log (level : LogLevel) (message : Str)
  | ocrCheck (region : Option Rect) (mustContain : Str)
  | captureScreen (path : Str) (region : Option Rect)

/-- Runtime errors, one constructor per distinct error produced by
runtime.rs; capability failures carry the provider's message. -/
inductive RtError : Type where
  | maxDepthExceeded
  | refNotFound (name : Str)
  | unknownWorkflow (name : Str)
  | capFailure (msg : Str)

/-- The Capability Provider boundary (actions.rs / the spec's external
interface): one fallible operation per leaf effect.  Logging is infallible in
the source and therefore has no field. -/
structure Caps : Type where
  mouseMoveTo : Int → Int → Except RtError Unit
  mouseClick : MouseButton → Option Nat → Except RtError Unit
  mouseScroll : Int → Int → Except RtError Unit
  keySequence : Str → Except RtError Unit
  typeText : Str → Except RtError Unit
  sleepMs : Nat → Except RtError Unit
  sleepRandMs : Nat → Nat → Except RtError Unit
  focusWindow : Str → Except RtError Bool
  ocrCheck : Option Rect → Str → Except RtError Bool
  captureScreen : Str → Option Rect → Except RtError Unit

/-- Model of `ActionExecutor` in dry-run mode (actions.rs): every operation
only logs and succeeds; `focus_window` reports `false` and `ocr_check`
reports `true`, as in the source. -/
def dryRunCaps : Caps :=
  ⟨fun _ _ => Except.ok (), fun _ _ => Except.ok (), fun _ _ => Except.ok (),
   fun _ => Except.ok (), fun _ => Except.ok (), fun _ => Except.ok (),
   fun _ _ => Except.ok (), fun _ => Except.ok false,
   fun _ _ => Except.ok true, fun _ _ => Except.ok ()⟩

/-- Model of `EventBinding` (config/models.rs). -/
structure EventBinding : Type where
  workflow : Str
  varsMap : List (Str × Str)

/-- Model of `SourceConfig` (config/models.rs). -/
inductive SourceConfig : Type where
  | file (path : Str) (pollMs : Option Nat) (deleteOnSuccess : Option Bool)
  | directory (path : Str) (pattern : Option Str) (recursive : Option Bool)
  | tcp (bind : Str) (ack : Option Bool)
  | stdin

/-- Model of `Config` (config/models.rs); maps become association lists. -/
structure Config : Type where
  sources : List SourceConfig
  actions : List (Str × ActionDef)
  workflows : List (Str × List ActionDef)
  events : List (Str × EventBinding)
  globals : Globals

/-- Maximum nesting depth for action execution (runtime.rs). -/
def MAX_DEPTH : Nat := 64

mutual

/-- Model of `Runtime::execute_action` (runtime.rs): depth guard first, then
dispatch on the action kind; every string field is interpolated against the
current scope and the config globals before use; the variable scope is
threaded through and returned. -/
def executeAction (cfg : Config) (caps : Caps) (action : ActionDef)
    (event : Json) (vars : Vars) (depth : Nat) : Except RtError Vars :=
  if h : depth > MAX_DEPTH then Except.error RtError.maxDepthExceeded
  else
    match action with
    | ActionDef.sequence steps => executeSteps cfg caps steps event vars (depth + 1)
    | ActionDef.ref name =>
      match lookupAssoc cfg.actions name with
      | none => Except.error (RtError.refNotFound name)
      | some referenced => executeAction cfg caps referenced event vars (depth + 1)
    | ActionDef.mouseMove x y => (caps.mouseMoveTo x y).map fun _ => vars
    | ActionDef.mouseClick b c => (caps.mouseClick b c).map fun _ => vars
    | ActionDef.mouseScroll dx dy => (caps.mouseScroll dx dy).map fun _ => vars
    | ActionDef.keySeq text =>
      (caps.keySequence (interpolateString text vars cfg.globals)).map fun _ => vars
    | ActionDef.typeText text =>
      (caps.typeText (interpolateString text vars cfg.globals)).map fun _ => vars
    | ActionDef.sleepMs ms => (caps.sleepMs ms).map fun _ => vars
    | ActionDef.sleepRandMs lo hi => (caps.sleepRandMs lo hi).map fun _ => vars
    | ActionDef.focusWindow t =>
      (caps.focusWindow (interpolateString t vars cfg.globals)).map fun _ => vars
    | ActionDef.setVar n v =>
      Except.ok (insertAssoc vars (interpolateString n vars cfg.globals)
        (interpolateString v vars cfg.globals))
    | ActionDef.conditional whenS equalsS thenA elseA =>
      if interpolateString whenS vars cfg.globals
          = interpolateString equalsS vars cfg.globals then
        executeAction cfg caps thenA event vars (depth + 1)
      else
        match elseA with
        | some e => executeAction cfg caps e event vars (depth + 1)
        | none => Except.ok vars
    | ActionDef.log _ _ => Except.ok vars
    | ActionDef.ocrCheck region mustC =>
      (caps.ocrCheck region (interpolateString mustC vars cfg.globals)).map fun _ => vars
    | ActionDef.captureScreen path region =>
      (caps.captureScreen (interpolateString path vars cfg.globals) region).map fun _ => vars
termination_by (MAX_DEPTH + 2 - depth, sizeOf action)

/-- The `for` loop inside the `Sequence` arm of `execute_action`: run the
steps in order at the given depth, aborting at the first failure. -/
def executeSteps (cfg : Config) (caps : Caps) (steps : List ActionDef)
    (event : Json) (vars : Vars) (depth : Nat) : Except RtError Vars :=
  match steps with
  | [] => Except.ok vars
  | step :: rest =>
    match executeAction cfg caps step event vars depth with
    | Except.ok vars₂ => executeSteps cfg caps rest event vars₂ depth
    | Except.error e => Except.error e
termination_by (MAX_DEPTH + 2 - depth, sizeOf steps)

end

/-! The event router (runtime.rs): event-field extraction. -/

/-- The traversal loop of `get_json_path` (runtime.rs): object traversal
only, no segment trimming. -/
def getJsonPathWalk : Json → List Str → Option Json
  | cur, [] => some cur
  | cur, seg :: rest =>
    match cur with
    | Json.obj fields =>
      match lookupAssoc fields seg with
      | some nxt => getJsonPathWalk nxt rest
      | none => none
    | _ => none

/-- Model of `get_json_path` (runtime.rs): an empty path returns the whole
value, otherwise the value is traversed along the dot-separated segments. -/
def getJsonPath (value : Json) (path : Str) : Option Json :=
  if path = [] then some value
  else getJsonPathWalk value (splitOnChar '.' path)

/-- Model of `json_value_to_string` (runtime.rs): strings are returned as-is,
every other value is serialized to compact JSON. -/
def jsonValueToString : Json → Str
  | Json.str s => s
  | v => renderJson v

/-- The `for (var_name, path) in &binding.vars_map` loop of
`Runtime::vars_from_event` (runtime.rs), threading the map being built: each
entry inserts the extracted field rendered as a string, or the empty string
when the path cannot be extracted. -/
def varsFromEventLoop (event : Json) : List (Str × Str) → Vars → Vars
  | [], acc => acc
  | nv :: rest, acc =>
    varsFromEventLoop event rest
      (match getJsonPath event nv.2 with
       | some v => insertAssoc acc nv.1 (jsonValueToString v)
       | none => insertAssoc acc nv.1 [])

/-- Model of `Runtime::vars_from_event` (runtime.rs): run the mapping loop on
an initially empty scope.  The Rust function returns `Result` but never an
error, so the workflow run always proceeds with the built scope. -/
def varsFromEvent (varsMap : List (Str × Str)) (event : Json) : Vars :=
  varsFromEventLoop event varsMap []

/-! The source orchestration layer (src/sources/mod.rs). -/

/-- The sources actually constructed by `build_sources_from_config`
(sources/mod.rs); there is no stdin variant because the function never builds
one. -/
inductive BuiltSource : Type where
  | fileSource (path : Str) (pollMs : Nat) (deleteOnSuccess : Bool)
  | directorySource (path : Str) (pattern : Option Str) (recursive : Bool)
  | tcpSource (bind : Str) (ack : Bool)

/-- Model of `build_sources_from_config` (sources/mod.rs) applied to
`cfg.sources`: file/directory/tcp entries become sources with their defaults
filled in; a `stdin` entry is logged as not implemented and skipped. -/
def buildSourcesFromConfig : List SourceConfig → List BuiltSource
  | [] => []
  | SourceConfig.file p pm dos :: rest =>
    BuiltSource.fileSource p (pm.getD 100) (dos.getD false)
      :: buildSourcesFromConfig rest
  | SourceConfig.directory p pat rec :: rest =>
    BuiltSource.directorySource p pat (rec.getD false)
      :: buildSourcesFromConfig rest
  | SourceConfig.tcp b a :: rest =>
    BuiltSource.tcpSource b (a.getD true) :: buildSourcesFromConfig rest
  | SourceConfig.stdin :: rest => buildSourcesFromConfig rest

/-! The file source polling loop (src/sources/file.rs). -/

/-- A file change signature: byte length and modification time in seconds. -/
abbrev Sig := Nat × Nat

/-- The outcome of reading and parsing the file, decided by the environment:
empty/whitespace-only content, content that fails JSON parsing, or a parsed
value. -/
inductive FileContent : Type where
  | emptyContent
  | malformed
  | parsed (v : Json)

/-- What one polling tick observes: the metadata result (`none` for a missing
file, otherwise whether the path is a regular file and its signature), the
read/parse outcome, and whether the event channel is still open. -/
structure FileTickObs : Type where
  meta : Option (Bool × Sig)
  read : Option FileContent
  sendOk : Bool

/-- One iteration of the `FileSource::start` loop (file.rs): returns whether
the loop continues, the new last-dispatch signature, and the dispatched event
if any.  Deletion failures are only logged and do not affect the state. -/
def fileStep (deleteOnSuccess : Bool) (lastSig : Option Sig)
    (o : FileTickObs) : Bool × Option Sig × Option Json :=
  match o.meta with
  | none => (true, lastSig, none)
  | some (false, _) => (true, lastSig, none)
  | some (true, sig) =>
    if deleteOnSuccess = false ∧ lastSig = some sig then (true, lastSig, none)
    else
      match o.read with
      | none => (true, lastSig, none)
      | some FileContent.emptyContent => (true, lastSig, none)
      | some FileContent.malformed => (true, lastSig, none)
      | some (FileContent.parsed v) =>
        if o.sendOk = false then (false, lastSig, none)
        else if deleteOnSuccess then (true, lastSig, some v)
        else (true, some sig, some v)

/-- The polling loop over a list of tick observations: threads the signature
state and collects dispatched events, stopping when an iteration breaks. -/
def runFileTicks (deleteOnSuccess : Bool) (lastSig : Option Sig) :
    List FileTickObs → Option Sig × List Json
  | [] => (lastSig, [])
  | o :: rest =>
    match fileStep deleteOnSuccess lastSig o with
    | (false, sig₂, d) => (sig₂, d.toList)
    | (true, sig₂, d) =>
      let r := runFileTicks deleteOnSuccess sig₂ rest
      (r.1, d.toList ++ r.2)

/-! The TCP connection handler (src/sources/tcp.rs). -/

/-- What the handler observes for one received line: the raw line, the parse
outcome of its trimmed text (`serde_json` is external, so its verdict is part
of the observation), whether the event channel accepted the send, and whether
the `OK` acknowledgement write succeeded. -/
structure LineObs : Type where
  raw : Str
  parse : Except Str Json
  sendOk : Bool
  ackWriteOk : Bool

/-- An acknowledgement written back to the client. -/
inductive Resp : Type where
  | ok
  | error (msg : Str)

/-- Model of the read loop of `TcpSource::handle_client` (tcp.rs) over the
lines received before end-of-stream: returns the acknowledgement writes
attempted and the events dispatched.  Empty lines are skipped; a parse
failure writes a best-effort `ERROR` acknowledgement and continues; a closed
event channel or a failed `OK` write ends the loop. -/
def handleClient (ack : Bool) : List LineObs → List Resp × List Json
  | [] => ([], [])
  | o :: rest =>
    if trimStr o.raw = [] then handleClient ack rest
    else
      match o.parse with
      | Except.ok v =>
        if o.sendOk = false then ([], [])
        else if ack then
          if o.ackWriteOk then
            let r := handleClient ack rest
            (Resp.ok :: r.1, v :: r.2)
          else ([Resp.ok], [v])
        else
          let r := handleClient ack rest
          (r.1, v :: r.2)
      | Except.error e =>
        if ack then
          let r := handleClient ack rest
          (Resp.error e :: r.1, r.2)
        else handleClient ack rest

/-! Supporting lemmas. -/

/-- If `splitFirst2` finds the doubled needle, the input decomposes around it. -/
theorem splitFirst2_eq_some {c : Char} :
    ∀ {s pre post : Str}, splitFirst2 c s = some (pre, post) →
      s = pre ++ c :: c :: post := by
  intro s
  induction s with
  | nil => intro pre post h; simp [splitFirst2] at h
  | cons a rest ih =>
    intro pre post h
    cases rest with
    | nil => simp [splitFirst2] at h
    | cons b rest₂ =>
      rw [splitFirst2] at h
      by_cases hc : a = c ∧ b = c
      · simp [hc] at h
        obtain ⟨h₃, h₄⟩ := h
        subst h₃; subst h₄
        simp [hc.1, hc.2]
      · simp [hc] at h
        cases h₃ : splitFirst2 c (b :: rest₂) with
        | none => rw [h₃] at h; simp at h
        | some pp =>
          obtain ⟨pre₂, post₂⟩ := pp
          rw [h₃] at h
          simp at h
          obtain ⟨h₄, h₅⟩ := h
          subst h₄; subst h₅
          have := ih h₃
          simp [this]

/-- A string that is not of the form `c :: t` has no prefix `c` stripped. -/
theorem stripPrefixChar_none {c : Char} {k : Str} (h : ∀ t, k ≠ c :: t) :
    stripPrefixChar c k = none := by
  cases k with
  | nil => rfl
  | cons a t =>
    simp [stripPrefixChar]
    intro ha
    subst ha
    exact absurd rfl (h t)

/-- Token replacement for a well-formed variable token: lookup in the scope,
or the literal token text when absent. -/
theorem resolveToken_var {k : Str} (vars : Vars) (globals : Globals)
    (hTrim : trimStr k = k) (hNe : k ≠ []) (hSig : ∀ t, k ≠ '@' :: t) :
    resolveToken vars globals k
      = match lookupAssoc vars k with
        | some v => v
        | none => openDelim ++ k ++ closeDelim := by
  simp only [resolveToken, hTrim]
  rw [if_neg hNe, stripPrefixChar_none hSig]

/-- Token replacement for a sigil-marked token: lookup in the globals table,
or the literal token text when absent. -/
theorem resolveToken_global {raw stripped : Str} (vars : Vars) (globals : Globals)
    (hTrim : trimStr raw = '@' :: stripped) :
    resolveToken vars globals raw
      = match lookupGlobal globals (trimStr stripped) with
        | some s => s
        | none => openDelim ++ raw ++ closeDelim := by
  simp only [resolveToken, hTrim]
  rw [if_neg (by simp : ('@' :: stripped : Str) ≠ [])]
  rfl

/-- Unfolding equation: no opening delimiter, the template is returned. -/
theorem interp_no_open {template : Str} (vars : Vars) (globals : Globals)
    (h : splitFirst2 '\x7b' template = none) :
    interpolateString template vars globals = template := by
  rw [interpolateString, h]

/-- Unfolding equation: an unterminated opening delimiter copies the whole
input verbatim. -/
theorem interp_no_close {template pre afterOpen : Str} (vars : Vars) (globals : Globals)
    (h₁ : splitFirst2 '\x7b' template = some (pre, afterOpen))
    (h₂ : splitFirst2 '\x7d' afterOpen = none) :
    interpolateString template vars globals = template := by
  rw [interpolateString, h₁]
  simp
  split
  · rfl
  · rename_i raw rest heq
    rw [h₂] at heq
    cases heq

/-- Unfolding equation: one token is replaced and scanning continues after
its closing delimiter. -/
theorem interp_step {template pre afterOpen raw rest : Str} (vars : Vars) (globals : Globals)
    (h₁ : splitFirst2 '\x7b' template = some (pre, afterOpen))
    (h₂ : splitFirst2 '\x7d' afterOpen = some (raw, rest)) :
    interpolateString template vars globals
      = pre ++ resolveToken vars globals raw ++ interpolateString rest vars globals := by
  rw [interpolateString, h₁]
  simp
  split
  · rename_i heq
    rw [h₂] at heq
    cases heq
  · rename_i raw₂ rest₂ heq
    rw [h₂] at heq
    injection heq with heq₂
    injection heq₂ with e₁ e₂
    subst e₁
    subst e₂
    rfl

/-- Interpolating the empty template yields the empty string. -/
theorem interp_nil (vars : Vars) (globals : Globals) :
    interpolateString [] vars globals = [] := by
  apply interp_no_open
  rfl

/-- The opening delimiter of a single-token template is found at position 0. -/
theorem splitFirst2_open_delim (raw : Str) :
    splitFirst2 '\x7b' (openDelim ++ raw ++ closeDelim)
      = some ([], raw ++ closeDelim) := by
  rw [openDelim, closeDelim]
  simp [splitFirst2]

/-- A template consisting of exactly one token interpolates to that token's
replacement. -/
theorem interp_single_token {raw : Str} (vars : Vars) (globals : Globals)
    (h : splitFirst2 '\x7d' (raw ++ closeDelim) = some (raw, [])) :
    interpolateString (openDelim ++ raw ++ closeDelim) vars globals
      = resolveToken vars globals raw := by
  rw [interp_step vars globals (splitFirst2_open_delim raw) h, interp_nil]
  simp

/-- Unfolding equation for `parseTemplate`: no opening delimiter. -/
theorem parse_no_open {template : Str}
    (h : splitFirst2 '\x7b' template = none) :
    parseTemplate template = [Piece.lit template] := by
  rw [parseTemplate, h]

/-- Unfolding equation for `parseTemplate`: unterminated opening delimiter. -/
theorem parse_no_close {template pre afterOpen : Str}
    (h₁ : splitFirst2 '\x7b' template = some (pre, afterOpen))
    (h₂ : splitFirst2 '\x7d' afterOpen = none) :
    parseTemplate template = [Piece.lit template] := by
  rw [parseTemplate, h₁]
  simp
  split
  · rfl
  · rename_i raw rest heq
    rw [h₂] at heq
    cases heq

/-- Unfolding equation for `parseTemplate`: one token is scanned. -/
theorem parse_step {template pre afterOpen raw rest : Str}
    (h₁ : splitFirst2 '\x7b' template = some (pre, afterOpen))
    (h₂ : splitFirst2 '\x7d' afterOpen = some (raw, rest)) :
    parseTemplate template = Piece.lit pre :: Piece.tok raw :: parseTemplate rest := by
  rw [parseTemplate, h₁]
  simp
  split
  · rename_i heq
    rw [h₂] at heq
    cases heq
  · rename_i raw₂ rest₂ heq
    rw [h₂] at heq
    injection heq with heq₂
    injection heq₂ with e₁ e₂
    subst e₁
    subst e₂
    rfl

/-- Interpolation factors through the scan: the output is the concatenation
of the substituted pieces of a decomposition computed from the template
alone. -/
theorem interp_eq_renderPieces (vars : Vars) (globals : Globals) :
    ∀ template : Str,
      interpolateString template vars globals
        = renderPieces vars globals (parseTemplate template) := by
  intro t
  generalize hn : t.length = n
  induction n using Nat.strong_induction_on generalizing t with
  | _ n ih =>
    cases h₁ : splitFirst2 '\x7b' t with
    | none =>
      rw [interp_no_open _ _ h₁, parse_no_open h₁]
      simp [renderPieces, renderPiece]
    | some p =>
      obtain ⟨pre, afterOpen⟩ := p
      cases h₂ : splitFirst2 '\x7d' afterOpen with
      | none =>
        rw [interp_no_close _ _ h₁ h₂, parse_no_close h₁ h₂]
        simp [renderPieces, renderPiece]
      | some q =>
        obtain ⟨raw, rest⟩ := q
        rw [interp_step _ _ h₁ h₂, parse_step h₁ h₂]
        have e₁ := splitFirst2_eq_some h₁
        have e₂ := splitFirst2_eq_some h₂
        have hlen : rest.length < n := by
          subst hn
          rw [e₁, e₂]
          simp
          omega
        rw [ih rest.length hlen rest rfl]
        simp [renderPieces, renderPiece]

/-- Looking up the key just inserted returns the inserted value. -/
theorem lookupAssoc_insertAssoc_self {α : Type} (l : List (Str × α)) (k : Str) (v : α) :
    lookupAssoc (insertAssoc l k v) k = some v := by
  induction l with
  | nil => simp [insertAssoc, lookupAssoc]
  | cons p rest ih =>
    obtain ⟨k₁, v₁⟩ := p
    by_cases hk : k₁ = k
    · simp [insertAssoc, hk, lookupAssoc]
    · simp [insertAssoc, hk, lookupAssoc, ih]

/-- Inserting one key leaves lookups of other keys unchanged. -/
theorem lookupAssoc_insertAssoc_ne {α : Type} (l : List (Str × α)) (k nm : Str) (v : α)
    (h : k ≠ nm) :
    lookupAssoc (insertAssoc l k v) nm = lookupAssoc l nm := by
  induction l with
  | nil => simp [insertAssoc, lookupAssoc, h]
  | cons p rest ih =>
    obtain ⟨k₁, v₁⟩ := p
    by_cases hk : k₁ = k
    · simp [insertAssoc, hk, lookupAssoc, h]
    · simp [insertAssoc, hk, lookupAssoc, ih]

/-- Entries of the mapping loop do not affect variables it never writes. -/
theorem varsFromEventLoop_lookup_notmem (event : Json) :
    ∀ (m : List (Str × Str)) (acc : Vars) (nm : Str),
      nm ∉ m.map Prod.fst →
      lookupAssoc (varsFromEventLoop event m acc) nm = lookupAssoc acc nm := by
  intro m
  induction m with
  | nil => intro acc nm _; rfl
  | cons nv rest ih =>
    intro acc nm hmem
    simp at hmem
    obtain ⟨h₁, h₂⟩ := hmem
    rw [varsFromEventLoop]
    rw [ih _ nm (by simpa using h₂)]
    cases getJsonPath event nv.2 with
    | none => exact lookupAssoc_insertAssoc_ne _ _ _ _ (fun hk => h₁ hk.symm)
    | some v => exact lookupAssoc_insertAssoc_ne _ _ _ _ (fun hk => h₁ hk.symm)

/-- The mapping loop seeds each mapped variable with the rendered extracted
field, or the empty string when extraction fails. -/
theorem varsFromEventLoop_lookup (event : Json) :
    ∀ (m : List (Str × Str)) (acc : Vars) (nm path : Str),
      (m.map Prod.fst).Nodup → (nm, path) ∈ m →
      lookupAssoc (varsFromEventLoop event m acc) nm
        = some (match getJsonPath event path with
                | some v => jsonValueToString v
                | none => []) := by
  intro m
  induction m with
  | nil => intro acc nm path _ hmem; cases hmem
  | cons nv rest ih =>
    intro acc nm path hnd hmem
    simp at hnd
    obtain ⟨hnd₁, hnd₂⟩ := hnd
    rcases List.mem_cons.mp hmem with heq | hmem₂
    · have e₁ : nv.1 = nm := by rw [← heq]
      have e₂ : nv.2 = path := by rw [← heq]
      rw [varsFromEventLoop]
      rw [varsFromEventLoop_lookup_notmem event rest _ nm
        (by rw [← e₁]; simpa using hnd₁)]
      rw [e₁, e₂]
      cases getJsonPath event path with
      | none => exact lookupAssoc_insertAssoc_self _ _ _
      | some v => exact lookupAssoc_insertAssoc_self _ _ _
    · rw [varsFromEventLoop]
      exact ih _ nm path hnd₂ hmem₂

/-- Downward induction on the depth budget: a two-action reference cycle
always runs into the depth guard. -/
theorem cycle_maxdepth_aux (cfg : Config) (caps : Caps) (e : Json) (vars : Vars)
    (a b : Str)
    (ha : lookupAssoc cfg.actions a = some (ActionDef.ref b))
    (hb : lookupAssoc cfg.actions b = some (ActionDef.ref a)) :
    ∀ (n d : Nat), MAX_DEPTH + 2 - d ≤ n →
      executeAction cfg caps (ActionDef.ref a) e vars d
          = Except.error RtError.maxDepthExceeded ∧
      executeAction cfg caps (ActionDef.ref b) e vars d
          = Except.error RtError.maxDepthExceeded := by
  intro n
  induction n with
  | zero =>
    intro d hd
    have hgt : MAX_DEPTH < d := by omega
    constructor <;> (rw [executeAction]; simp [hgt])
  | succ n ih =>
    intro d hd
    by_cases hgt : MAX_DEPTH < d
    · constructor <;> (rw [executeAction]; simp [hgt])
    · have hd₂ : MAX_DEPTH + 2 - (d + 1) ≤ n := by omega
      have IH := ih (d + 1) hd₂
      constructor
      · rw [executeAction]
        simp [hgt, ha]
        exact IH.2
      · rw [executeAction]
        simp [hgt, hb]
        exact IH.1

/-- A reported pair is a real pair: when `hasDelimPair` holds, the string
decomposes around an opening and a later closing delimiter. -/
theorem hasDelimPair_exists {s : Str} (h : hasDelimPair s = true) :
    ∃ a b c, s = a ++ openDelim ++ b ++ closeDelim ++ c := by
  unfold hasDelimPair at h
  cases h₁ : splitFirst2 '\x7b' s with
  | none => rw [h₁] at h; simp at h
  | some p =>
    obtain ⟨pre, afterOpen⟩ := p
    rw [h₁] at h
    simp [Option.isSome_iff_exists] at h
    obtain ⟨raw, rest, h₂⟩ := h
    have e₁ := splitFirst2_eq_some h₁
    have e₂ := splitFirst2_eq_some h₂
    refine ⟨pre, raw, rest, ?_⟩
    rw [e₁, e₂]
    simp [openDelim, closeDelim]

theorem glob_nil (t : Str) : specGlobMatch [] t = t.isEmpty := by
  rw [specGlobMatch]

theorem glob_star_cons (ps : List Char) (t : Str) :
    specGlobMatch ('*' :: ps) t
      = (specGlobMatch ps t ||
          (match t with
           | [] => false
           | _ :: ts => specGlobMatch ('*' :: ps) ts)) := by
  rw [specGlobMatch.eq_def]
  simp

theorem glob_lit_cons {c : Char} (hc : c ≠ '*') (ps : List Char) (t : Str) :
    specGlobMatch (c :: ps) t
      = (match t with
         | [] => false
         | d :: ts => if c = d then specGlobMatch ps ts else false) := by
  rw [specGlobMatch.eq_def]
  simp [hc]

theorem glob_star_all : ∀ t : Str, specGlobMatch ['*'] t = true := by
  intro t
  induction t with
  | nil => rw [glob_star_cons]; simp [glob_nil]
  | cons c ts ih => rw [glob_star_cons]; simp [ih]

theorem glob_star_iff (p : List Char) :
    ∀ t : Str, specGlobMatch ('*' :: p) t = true
      ↔ ∃ n, specGlobMatch p (t.drop n) = true := by
  intro t
  induction t with
  | nil =>
    rw [glob_star_cons]
    simp
  | cons c ts ih =>
    rw [glob_star_cons]
    simp
    constructor
    · intro h
      rcases h with h | h
      · exact ⟨0, by simpa using h⟩
      · obtain ⟨n, hn⟩ := ih.mp h
        exact ⟨n + 1, by simpa using hn⟩
    · intro ⟨n, hn⟩
      cases n with
      | zero => exact Or.inl (by simpa using hn)
      | succ m => exact Or.inr (ih.mpr ⟨m, by simpa using hn⟩)

theorem startsWithSeg_iff : ∀ (s t : Str),
    startsWithSeg s t = true ↔ ∃ r, t = s ++ r := by
  intro s
  induction s with
  | nil => intro t; simp [startsWithSeg]
  | cons a s₂ ih =>
    intro t
    cases t with
    | nil => simp [startsWithSeg]
    | cons b ts =>
      rw [startsWithSeg]
      by_cases hab : a = b
      · subst hab
        simp [ih]
      · rw [if_neg hab]
        constructor
        · intro h
          simp at h
        · intro h
          obtain ⟨r, hr⟩ := h
          rw [List.cons_append] at hr
          injection hr with h₁ h₂
          exact absurd h₁.symm hab

theorem glob_append_lit : ∀ (s : Str), '*' ∉ s → ∀ (p : List Char) (t : Str),
    specGlobMatch (s ++ p) t
      = (startsWithSeg s t && specGlobMatch p (t.drop s.length)) := by
  intro s
  induction s with
  | nil => intro _ p t; simp [startsWithSeg]
  | cons c s₂ ih =>
    intro hs p t
    have hc : c ≠ '*' := by
      intro h; exact hs (by simp [h])
    have hs₂ : '*' ∉ s₂ := by
      intro h; exact hs (by simp [h])
    rw [List.cons_append, glob_lit_cons hc]
    cases t with
    | nil => simp [startsWithSeg]
    | cons d ts =>
      rw [startsWithSeg]
      by_cases hcd : c = d
      · simp [hcd, ih hs₂ p ts]
      · simp [hcd]

theorem glob_lit_only {s : Str} (hs : '*' ∉ s) (t : Str) :
    specGlobMatch s t = true ↔ t = s := by
  have := glob_append_lit s hs [] t
  rw [List.append_nil] at this
  rw [this]
  simp [glob_nil, startsWithSeg_iff, List.isEmpty_iff]
  constructor
  · intro ⟨⟨r, hr⟩, hdrop⟩
    subst hr
    simp at hdrop
    simp [hdrop]
  · intro h
    subst h
    exact ⟨⟨[], by simp⟩, by simp⟩

theorem glob_star_mono {p : List Char} {t : Str} (n : Nat)
    (h : specGlobMatch ('*' :: p) (t.drop n) = true) :
    specGlobMatch ('*' :: p) t = true := by
  obtain ⟨m, hm⟩ := (glob_star_iff p (t.drop n)).mp h
  rw [List.drop_drop] at hm
  exact (glob_star_iff p t).mpr ⟨n + m, hm⟩

theorem dropAfterFirst_sound : ∀ (seg s r : Str),
    dropAfterFirst seg s = some r →
    ∃ m, startsWithSeg seg (s.drop m) = true ∧ r = s.drop (m + seg.length) := by
  intro seg s
  induction s with
  | nil =>
    intro r h
    rw [dropAfterFirst] at h
    by_cases hs : startsWithSeg seg [] = true
    · rw [if_pos hs] at h
      injection h with h₁
      exact ⟨0, by simpa using hs, by simp [← h₁]⟩
    · rw [if_neg hs] at h
      cases h
  | cons c s₂ ih =>
    intro r h
    rw [dropAfterFirst] at h
    by_cases hs : startsWithSeg seg (c :: s₂) = true
    · rw [if_pos hs] at h
      injection h with h₁
      exact ⟨0, by simpa using hs, by simp [← h₁]⟩
    · rw [if_neg hs] at h
      obtain ⟨m, hm₁, hm₂⟩ := ih r h
      refine ⟨m + 1, by simpa using hm₁, ?_⟩
      rw [hm₂, show m + 1 + seg.length = (m + seg.length) + 1 from by omega]
      rfl

theorem dropAfterFirst_none : ∀ (seg s : Str),
    dropAfterFirst seg s = none →
    ∀ n, startsWithSeg seg (s.drop n) = false := by
  intro seg s
  induction s with
  | nil =>
    intro h n
    rw [dropAfterFirst] at h
    by_cases hs : startsWithSeg seg [] = true
    · rw [if_pos hs] at h; cases h
    · simpa using Bool.eq_false_iff.mpr (by simpa [List.drop_nil] using hs)
  | cons c s₂ ih =>
    intro h n
    rw [dropAfterFirst] at h
    by_cases hs : startsWithSeg seg (c :: s₂) = true
    · rw [if_pos hs] at h; cases h
    · rw [if_neg hs] at h
      cases n with
      | zero => simpa using Bool.eq_false_iff.mpr hs
      | succ m => simpa using ih h m

theorem dropAfterFirst_suffix : ∀ (seg s r : Str),
    dropAfterFirst seg s = some r →
    ∀ n, startsWithSeg seg (s.drop n) = true →
      ∃ k, s.drop (n + seg.length) = r.drop k := by
  intro seg s
  induction s with
  | nil =>
    intro r h n hn
    rw [dropAfterFirst] at h
    by_cases hs : startsWithSeg seg [] = true
    · rw [if_pos hs] at h
      injection h with h₁
      exact ⟨0, by simp [← h₁]⟩
    · rw [if_neg hs] at h; cases h
  | cons c s₂ ih =>
    intro r h n hn
    rw [dropAfterFirst] at h
    by_cases hs : startsWithSeg seg (c :: s₂) = true
    · rw [if_pos hs] at h
      injection h with h₁
      refine ⟨n, ?_⟩
      rw [← h₁]
      rw [List.drop_drop]
      congr 1
      omega
    · rw [if_neg hs] at h
      cases n with
      | zero => simp at hn; exact absurd hn hs
      | succ m =>
        have := ih r h m (by simpa using hn)
        simpa [Nat.succ_add] using this

theorem containsSeg_iff (seg s : Str) :
    containsSeg seg s = true ↔ ∃ n, startsWithSeg seg (s.drop n) = true := by
  rw [containsSeg]
  constructor
  · intro h
    obtain ⟨r, hr⟩ := Option.isSome_iff_exists.mp h
    obtain ⟨m, hm, _⟩ := dropAfterFirst_sound seg s r hr
    exact ⟨m, hm⟩
  · intro ⟨n, hn⟩
    cases hda : dropAfterFirst seg s with
    | some r => simp
    | none => exact absurd hn (by simp [dropAfterFirst_none seg s hda n])

theorem endsWithSeg_iff (suf s : Str) :
    endsWithSeg suf s = true ↔ ∃ n, s.drop n = suf := by
  rw [endsWithSeg, startsWithSeg_iff]
  constructor
  · intro h
    obtain ⟨r, hr⟩ := h
    refine ⟨r.length, ?_⟩
    have hs : s = r.reverse ++ suf := by
      have := congrArg List.reverse hr
      simpa [List.reverse_append] using this
    rw [hs]
    have hl : r.reverse.length = r.length := by simp
    rw [← hl, List.drop_left]
  · intro h
    obtain ⟨n, hn⟩ := h
    refine ⟨(s.take n).reverse, ?_⟩
    have hs : s = s.take n ++ suf := by
      conv_lhs => rw [← List.take_append_drop n s]
      rw [hn]
    conv_lhs => rw [hs]
    simp [List.reverse_append]


theorem glob_greedy_step (seg : Str) (hseg : '*' ∉ seg) (q : List Char) (rem : Str) :
    specGlobMatch ('*' :: (seg ++ '*' :: q)) rem
      = match dropAfterFirst seg rem with
        | none => false
        | some rem₂ => specGlobMatch ('*' :: q) rem₂ := by
  cases hda : dropAfterFirst seg rem with
  | none =>
    simp
    rw [Bool.eq_false_iff]
    intro hcontra
    obtain ⟨n, hn⟩ := (glob_star_iff _ rem).mp hcontra
    rw [glob_append_lit seg hseg, Bool.and_eq_true] at hn
    exact absurd hn.1 (by simp [dropAfterFirst_none seg rem hda n])
  | some rem₂ =>
    simp
    rw [Bool.eq_iff_iff]
    constructor
    · intro h
      obtain ⟨n, hn⟩ := (glob_star_iff _ rem).mp h
      rw [glob_append_lit seg hseg, Bool.and_eq_true] at hn
      obtain ⟨hsw, hg⟩ := hn
      rw [List.drop_drop] at hg
      obtain ⟨k, hk⟩ := dropAfterFirst_suffix seg rem rem₂ hda n hsw
      rw [hk] at hg
      exact glob_star_mono k hg
    · intro h
      obtain ⟨m, hm, hrem⟩ := dropAfterFirst_sound seg rem rem₂ hda
      apply (glob_star_iff _ rem).mpr
      refine ⟨m, ?_⟩
      rw [glob_append_lit seg hseg, Bool.and_eq_true]
      refine ⟨hm, ?_⟩
      rw [List.drop_drop, ← hrem]
      exact h

theorem glob_star_last (last : Str) (hl : '*' ∉ last) (rem : Str) :
    specGlobMatch ('*' :: last) rem = endsWithSeg last rem := by
  rw [Bool.eq_iff_iff, glob_star_iff, endsWithSeg_iff]
  constructor
  · intro h
    obtain ⟨n, hn⟩ := h
    exact ⟨n, (glob_lit_only hl _).mp hn⟩
  · intro h
    obtain ⟨n, hn⟩ := h
    exact ⟨n, (glob_lit_only hl _).mpr hn⟩

theorem glob_star_last_star (last : Str) (hl : '*' ∉ last) (rem : Str) :
    specGlobMatch ('*' :: (last ++ ['*'])) rem = containsSeg last rem := by
  rw [Bool.eq_iff_iff, glob_star_iff, containsSeg_iff]
  constructor
  · intro h
    obtain ⟨n, hn⟩ := h
    rw [glob_append_lit last hl, Bool.and_eq_true] at hn
    exact ⟨n, hn.1⟩
  · intro h
    obtain ⟨n, hn⟩ := h
    refine ⟨n, ?_⟩
    rw [glob_append_lit last hl, Bool.and_eq_true]
    exact ⟨hn, glob_star_all _⟩

theorem matchTail_cons (ss es : Bool) (seg p₂ : Str) (rest₂ : List Str) (rem : Str) :
    matchTail ss es (seg :: p₂ :: rest₂) rem
      = match dropAfterFirst seg rem with
        | none => false
        | some rem₂ => matchTail ss es (p₂ :: rest₂) rem₂ := by
  rw [matchTail, consumeMiddle]
  cases hda : dropAfterFirst seg rem with
  | none => rfl
  | some rem₂ =>
    simp
    conv_rhs => rw [matchTail]

theorem matchTail_eq_glob :
    ∀ (parts : List Str) (rem : Str) (es ss : Bool),
      parts ≠ [] → (∀ part ∈ parts, '*' ∉ part) →
      matchTail ss es parts rem
        = specGlobMatch
            ('*' :: (joinWithStar parts ++ (if es then ['*'] else []))) rem := by
  intro parts
  induction parts with
  | nil => intro rem es ss h; exact absurd rfl h
  | cons seg rest ih =>
    intro rem es ss _ hfree
    have hseg : '*' ∉ seg := hfree seg (by simp)
    cases rest with
    | nil =>
      rw [matchTail, consumeMiddle]
      simp only [joinWithStar]
      cases es with
      | true => simp [glob_star_last_star seg hseg rem]
      | false => simp [glob_star_last seg hseg rem]
    | cons p₂ rest₂ =>
      rw [matchTail_cons]
      have hJ : joinWithStar (seg :: p₂ :: rest₂) ++ (if es then ['*'] else [])
          = seg ++ '*' :: (joinWithStar (p₂ :: rest₂) ++ (if es then ['*'] else [])) := by
        rw [joinWithStar]
        simp
      rw [hJ, glob_greedy_step seg hseg]
      cases hda : dropAfterFirst seg rem with
      | none => rfl
      | some rem₂ =>
        simp
        exact ih rem₂ es ss (by simp) (fun part hp => hfree part (by simp [hp]))



theorem splitOnChar_ne_nil (c : Char) : ∀ s : Str, splitOnChar c s ≠ [] := by
  intro s
  cases s with
  | nil => simp [splitOnChar]
  | cons a rest =>
    rw [splitOnChar]
    by_cases hac : a = c
    · simp [hac]
    · simp [hac]
      cases h : splitOnChar c rest with
      | nil => simp
      | cons x xs => simp

theorem splitOnChar_cons_self (c : Char) (s : Str) :
    splitOnChar c (c :: s) = [] :: splitOnChar c s := by
  simp [splitOnChar]

theorem joinWithStar_splitOnChar : ∀ s : Str, joinWithStar (splitOnChar '*' s) = s := by
  intro s
  induction s with
  | nil => rfl
  | cons a rest ih =>
    rw [splitOnChar]
    by_cases hac : a = '*'
    · rw [if_pos hac]
      cases h : splitOnChar '*' rest with
      | nil => exact absurd h (splitOnChar_ne_nil '*' rest)
      | cons x xs =>
        rw [joinWithStar]
        rw [h] at ih
        rw [ih, hac]
        rfl
    · rw [if_neg hac]
      cases h : splitOnChar '*' rest with
      | nil => exact absurd h (splitOnChar_ne_nil '*' rest)
      | cons x xs =>
        rw [h] at ih
        cases xs with
        | nil =>
          rw [joinWithStar]
          rw [joinWithStar] at ih
          rw [ih]
        | cons y ys =>
          rw [joinWithStar]
          rw [joinWithStar] at ih
          simp at ih ⊢
          rw [ih]

theorem splitOnChar_star_free (c : Char) :
    ∀ (s : Str) (part : Str), part ∈ splitOnChar c s → c ∉ part := by
  intro s
  induction s with
  | nil =>
    intro part hp
    simp [splitOnChar] at hp
    simp [hp]
  | cons a rest ih =>
    intro part hp
    rw [splitOnChar] at hp
    by_cases hac : a = c
    · simp [hac] at hp
      rcases hp with hp | hp
      · simp [hp]
      · exact ih part hp
    · rw [if_neg hac] at hp
      cases h : splitOnChar c rest with
      | nil => exact absurd h (splitOnChar_ne_nil c rest)
      | cons x xs =>
        rw [h] at hp
        simp at hp
        rcases hp with hp | hp
        · subst hp
          intro hmem
          simp at hmem
          rcases hmem with hmem | hmem
          · exact hac hmem.symm
          · exact (ih x (by simp [h])) hmem
        · exact ih part (by simp [h, hp])

theorem splitOnChar_concat (c : Char) :
    ∀ s : Str, splitOnChar c (s ++ [c]) = splitOnChar c s ++ [[]] := by
  intro s
  induction s with
  | nil => simp [splitOnChar]
  | cons a rest ih =>
    rw [List.cons_append, splitOnChar]
    by_cases hac : a = c
    · rw [if_pos hac, ih]
      rw [splitOnChar, if_pos hac]
      rfl
    · rw [if_neg hac, ih]
      conv_rhs => rw [splitOnChar, if_neg hac]
      cases h : splitOnChar c rest with
      | nil => exact absurd h (splitOnChar_ne_nil c rest)
      | cons x xs => simp

theorem joinWithStar_concat_nil :
    ∀ xs : List Str, xs ≠ [] → joinWithStar (xs ++ [[]]) = joinWithStar xs ++ ['*'] := by
  intro xs
  induction xs with
  | nil => intro h; exact absurd rfl h
  | cons x rest ih =>
    intro _
    cases rest with
    | nil => rfl
    | cons y ys =>
      calc joinWithStar ((x :: y :: ys) ++ [[]])
          = x ++ '*' :: joinWithStar ((y :: ys) ++ [[]]) := by
            rw [List.cons_append, List.cons_append, joinWithStar]
        _ = x ++ '*' :: (joinWithStar (y :: ys) ++ ['*']) := by rw [ih (by simp)]
        _ = joinWithStar (x :: y :: ys) ++ ['*'] := by rw [joinWithStar]; simp

theorem startsWithChar_iff (c : Char) (s : Str) :
    startsWithChar c s = true ↔ ∃ r, s = c :: r := by
  cases s with
  | nil => simp [startsWithChar]
  | cons a rest =>
    rw [startsWithChar]
    by_cases hac : a = c
    · simp [hac]
    · simp [hac]

theorem endsWithChar_iff (c : Char) (s : Str) :
    endsWithChar c s = true ↔ ∃ r, s = r ++ [c] := by
  rw [endsWithChar, startsWithChar_iff]
  constructor
  · intro h
    obtain ⟨r, hr⟩ := h
    refine ⟨r.reverse, ?_⟩
    have := congrArg List.reverse hr
    simpa using this
  · intro h
    obtain ⟨r, hr⟩ := h
    refine ⟨r.reverse, ?_⟩
    rw [hr]
    simp

theorem not_mem_of_contains_false {c : Char} :
    ∀ {s : Str}, s.contains c = false → c ∉ s := by
  intro s
  induction s with
  | nil => intro _ hmem; cases hmem
  | cons a rest ih =>
    intro h hmem
    rw [List.contains_cons] at h
    simp at h
    obtain ⟨h₁, h₂⟩ := h
    rcases List.mem_cons.mp hmem with he | hm
    · exact h₁ he
    · exact h₂ hm



theorem trimBoundaryParts_start (es : Bool) (xs : List Str) :
    trimBoundaryParts true es ([] :: xs) = trimBoundaryParts false es xs := by
  simp only [trimBoundaryParts]
  simp

theorem trimBoundaryParts_end (xs : List Str) :
    trimBoundaryParts false true (xs ++ [[]]) = xs := by
  simp only [trimBoundaryParts]
  simp [List.getLast?_concat]

theorem trimBoundaryParts_no (xs : List Str) :
    trimBoundaryParts false false xs = xs := by
  simp only [trimBoundaryParts]
  simp

theorem prefix_phase_eq_glob (first : Str) (restParts : List Str) (es : Bool)
    (t : Str) (hfree₁ : '*' ∉ first) (hfree₂ : ∀ part ∈ restParts, '*' ∉ part) :
    (if startsWithSeg first t = true then
      matchTail false es restParts (t.drop first.length)
     else false)
      = specGlobMatch (joinWithStar (first :: restParts)
          ++ (if es then ['*'] else [])) t := by
  cases restParts with
  | nil =>
    rw [joinWithStar]
    cases es with
    | true =>
      have hT : (if (true : Bool) then (['*'] : Str) else []) = ['*'] := rfl
      rw [hT, glob_append_lit first hfree₁]
      cases hsw : startsWithSeg first t with
      | true =>
        rw [matchTail, consumeMiddle]
        simp [glob_star_all]
      | false => simp
    | false =>
      have hT : (if (false : Bool) then (['*'] : Str) else []) = [] := rfl
      rw [hT, List.append_nil]
      have hB := glob_append_lit first hfree₁ [] t
      rw [List.append_nil] at hB
      rw [hB]
      cases hsw : startsWithSeg first t with
      | true =>
        rw [matchTail, consumeMiddle]
        simp [glob_nil]
      | false => simp
  | cons r₁ r₂ =>
    have hJ : joinWithStar (first :: r₁ :: r₂) ++ (if es then ['*'] else [])
        = first ++ '*' :: (joinWithStar (r₁ :: r₂) ++ (if es then ['*'] else [])) := by
      rw [joinWithStar]
      simp
    rw [hJ, glob_append_lit first hfree₁]
    cases hsw : startsWithSeg first t with
    | true =>
      simp
      exact matchTail_eq_glob (r₁ :: r₂) (t.drop first.length) es false (by simp) hfree₂
    | false => simp


theorem simplePatternMatch_eq_spec (t p : Str) :
    simplePatternMatch t p = specGlobMatch p t := by
  by_cases hstar1 : p = ['*']
  · subst hstar1
    rw [simplePatternMatch, if_pos rfl, glob_star_all]
  by_cases hcont : p.contains '*' = false
  · rw [simplePatternMatch, if_neg hstar1, if_pos hcont]
    have hfree : '*' ∉ p := not_mem_of_contains_false hcont
    rw [Bool.eq_iff_iff, beq_iff_eq]
    exact ⟨fun h => (glob_lit_only hfree t).mpr h,
           fun h => (glob_lit_only hfree t).mp h⟩
  · simp only [simplePatternMatch]
    rw [if_neg hstar1, if_neg hcont, if_neg (splitOnChar_ne_nil '*' p)]
    cases hss : startsWithChar '*' p with
    | true =>
      obtain ⟨p₂, hp₂⟩ := (startsWithChar_iff '*' p).mp hss
      subst hp₂
      simp only [hss, if_true]
      rw [splitOnChar_cons_self]
      cases hes : endsWithChar '*' ('*' :: p₂) with
      | true =>
        obtain ⟨r, hr⟩ := (endsWithChar_iff '*' _).mp hes
        cases r with
        | nil =>
          simp at hr
          exact absurd (by rw [hr]) hstar1
        | cons r₁ r₂ =>
          rw [List.cons_append] at hr
          injection hr with hr₁ hr₂
          rw [hr₂, splitOnChar_concat]
          rw [trimBoundaryParts_start, trimBoundaryParts_end]
          rw [matchTail_eq_glob (splitOnChar '*' r₂) t true true
            (splitOnChar_ne_nil '*' r₂) (splitOnChar_star_free '*' r₂)]
          rw [joinWithStar_splitOnChar]
          rfl
      | false =>
        rw [trimBoundaryParts_start, trimBoundaryParts_no]
        rw [matchTail_eq_glob (splitOnChar '*' p₂) t false true
          (splitOnChar_ne_nil '*' p₂) (splitOnChar_star_free '*' p₂)]
        rw [joinWithStar_splitOnChar]
        simp
    | false =>
      rw [if_neg (by simp : ¬ ((false : Bool) = true))]
      cases hes : endsWithChar '*' p with
      | true =>
        obtain ⟨p₀, hp₀⟩ := (endsWithChar_iff '*' p).mp hes
        rw [hp₀, splitOnChar_concat, trimBoundaryParts_end]
        cases hsp : splitOnChar '*' p₀ with
        | nil => exact absurd hsp (splitOnChar_ne_nil '*' p₀)
        | cons first restParts =>
          have hfree₁ : '*' ∉ first :=
            splitOnChar_star_free '*' p₀ first (by rw [hsp]; simp)
          have hfree₂ : ∀ part ∈ restParts, '*' ∉ part := fun part hp =>
            splitOnChar_star_free '*' p₀ part (by rw [hsp]; simp [hp])
          have hpe := prefix_phase_eq_glob first restParts true t hfree₁ hfree₂
          rw [← hsp, joinWithStar_splitOnChar, if_pos rfl] at hpe
          exact hpe
      | false =>
        rw [trimBoundaryParts_no]
        cases hsp : splitOnChar '*' p with
        | nil => exact absurd hsp (splitOnChar_ne_nil '*' p)
        | cons first restParts =>
          have hfree₁ : '*' ∉ first :=
            splitOnChar_star_free '*' p first (by rw [hsp]; simp)
          have hfree₂ : ∀ part ∈ restParts, '*' ∉ part := fun part hp =>
            splitOnChar_star_free '*' p part (by rw [hsp]; simp [hp])
          have hpe := prefix_phase_eq_glob first restParts false t hfree₁ hfree₂
          rw [← hsp, joinWithStar_splitOnChar,
            if_neg (by simp : ¬ ((false : Bool) = true)), List.append_nil] at hpe
          exact hpe

/-- C6: the directory source's wildcard matcher agrees with the declarative
wildcard semantics on every text and pattern: `*` matches any (possibly
empty) substring, multiple wildcards are supported, matching is
case-sensitive character equality, and non-wildcard prefix/suffix segments
are anchored; in particular the three concrete examples hold (plus a
case-sensitivity instance). -/
theorem wildcard_matcher_correct :
    (∀ (text pattern : Str),
      simplePatternMatch text pattern = specGlobMatch pattern text) ∧
    simplePatternMatch ("event_123.json".toList) ("event_*.json".toList) = true ∧
    simplePatternMatch ("abc".toList) ("abcd".toList) = false ∧
    simplePatternMatch ("axyzd".toList) ("a*z*d".toList) = true ∧
    simplePatternMatch ("ABC".toList) ("abc".toList) = false :=
  ⟨fun text pattern => simplePatternMatch_eq_spec text pattern,
   by decide, by decide, by decide, by decide⟩

/-! Claim theorems. -/

/-- C1: the claim says a configuration whose sources list contains a stdin
source gets a stdin-reading task built and started; the orchestration in
sources/mod.rs instead logs that stdin is not implemented and skips it, so a
stdin entry contributes nothing to the built source list.  This theorem
evaluates the orchestration at the failing input and in general. -/
theorem stdin_source_skipped :
    buildSourcesFromConfig [SourceConfig.stdin] = [] ∧
    ∀ (pre post : List SourceConfig),
      buildSourcesFromConfig (pre ++ SourceConfig.stdin :: post)
        = buildSourcesFromConfig (pre ++ post) := by
  refine ⟨rfl, ?_⟩
  intro pre post
  induction pre with
  | nil => rfl
  | cons sc rest ih =>
    cases sc <;> simp [buildSourcesFromConfig, ih]

/-- C2: for every named-action table in which action `a` is a reference to
`b` and `b` a reference to `a`, executing either action from depth 0
terminates (the model is a total function) and returns the distinguishable
max-depth-exceeded error, for every capability provider, event and scope. -/
theorem reference_cycle_max_depth (cfg : Config) (caps : Caps) (e : Json)
    (vars : Vars) (a b : Str)
    (ha : lookupAssoc cfg.actions a = some (ActionDef.ref b))
    (hb : lookupAssoc cfg.actions b = some (ActionDef.ref a)) :
    executeAction cfg caps (ActionDef.ref a) e vars 0
        = Except.error RtError.maxDepthExceeded ∧
    executeAction cfg caps (ActionDef.ref b) e vars 0
        = Except.error RtError.maxDepthExceeded :=
  cycle_maxdepth_aux cfg caps e vars a b ha hb (MAX_DEPTH + 2) 0 (by omega)

/-- Witness for C2: the concrete two-entry cycle `A -> ref B`, `B -> ref A`
run under the dry-run capability provider. -/
theorem reference_cycle_max_depth_witness :
    executeAction
        ⟨[], [((['A'] : Str), ActionDef.ref ['B']), ((['B'] : Str), ActionDef.ref ['A'])],
         [], [], []⟩
        dryRunCaps (ActionDef.ref ['A']) Json.null [] 0
      = Except.error RtError.maxDepthExceeded :=
  (reference_cycle_max_depth
    ⟨[], [((['A'] : Str), ActionDef.ref ['B']), ((['B'] : Str), ActionDef.ref ['A'])],
     [], [], []⟩
    dryRunCaps Json.null [] ['A'] ['B'] rfl rfl).1

/-- C3 (amended): for every variable name `k` that is its own trim, nonempty,
not sigil-marked, and whose first closing delimiter in `k ++ "\x7d\x7d"` is
the final one, interpolating the single-token template yields the bound value
when `k` is bound, and the literal token text when it is not. -/
theorem interpolate_single_variable_token (vars : Vars) (globals : Globals)
    (k v : Str) (hTrim : trimStr k = k) (hNe : k ≠ [])
    (hSig : ∀ t, k ≠ '@' :: t)
    (hClose : splitFirst2 '\x7d' (k ++ closeDelim) = some (k, [])) :
    (lookupAssoc vars k = some v →
      interpolateString (openDelim ++ k ++ closeDelim) vars globals = v) ∧
    (lookupAssoc vars k = none →
      interpolateString (openDelim ++ k ++ closeDelim) vars globals
        = openDelim ++ k ++ closeDelim) := by
  have base := interp_single_token vars globals hClose
  rw [resolveToken_var vars globals hTrim hNe hSig] at base
  constructor
  · intro hv
    rw [base, hv]
  · intro hv
    rw [base, hv]

/-- Counterexample to C3 as stated: the variable name `"@x"` is bound to
`"v"` in the scope, yet interpolating its single-token template returns the
literal token text (the token is routed to the globals table by its leading
sigil), not `"v"`. -/
theorem interpolate_sigil_name_counterexample :
    lookupAssoc [((['@', 'x'] : Str), (['v'] : Str))] ['@', 'x'] = some ['v'] ∧
    interpolateString (openDelim ++ ['@', 'x'] ++ closeDelim)
        [((['@', 'x'] : Str), (['v'] : Str))] []
      = openDelim ++ ['@', 'x'] ++ closeDelim ∧
    openDelim ++ (['@', 'x'] : Str) ++ closeDelim ≠ ['v'] := by
  refine ⟨by decide, ?_, by decide⟩
  rw [interp_single_token _ _ (by decide)]
  decide

/-- Witness for C3: the bound variable `"name"` substitutes its value. -/
theorem interpolate_single_variable_token_witness :
    interpolateString (openDelim ++ ['n', 'a', 'm', 'e'] ++ closeDelim)
      [((['n', 'a', 'm', 'e'] : Str), (['Z'] : Str))] [] = ['Z'] :=
  (interpolate_single_variable_token _ _ _ _ (by decide) (by decide)
    (by intro t h; injection h with h₁ h₂; exact absurd h₁ (by decide))
    (by decide)).1 (by decide)

/-- C4: for every input containing no delimiter pair (no opening `\x7b\x7b`
followed by a closing `\x7d\x7d`), and for every variable scope and globals
table, interpolation returns the input unchanged. -/
theorem interpolate_no_delims_unchanged (template : Str)
    (h : hasDelimPair template = false) :
    ∀ (vars : Vars) (globals : Globals),
      interpolateString template vars globals = template := by
  intro vars globals
  unfold hasDelimPair at h
  cases h₁ : splitFirst2 '\x7b' template with
  | none => exact interp_no_open _ _ h₁
  | some p =>
    obtain ⟨pre, afterOpen⟩ := p
    rw [h₁] at h
    simp at h
    exact interp_no_close _ _ h₁ h

/-- Witness for C4: a delimiter-free input is returned unchanged even when
its whole text is a bound variable name. -/
theorem interpolate_no_delims_unchanged_witness :
    hasDelimPair ['h', 'i'] = false ∧
    interpolateString ['h', 'i'] [((['h', 'i'] : Str), (['y'] : Str))] [] = ['h', 'i'] :=
  ⟨by decide, interpolate_no_delims_unchanged _ (by decide) _ _⟩

/-- C5: a sigil-marked global token supports a dotted path into nested JSON
objects: with globals `app.meta.version = "0.1.0"` the token interpolates to
`0.1.0` for every variable scope; in general a resolved global that is a JSON
string substitutes its contents literally, and a resolved non-string value
substitutes its compact JSON serialization. -/
theorem global_token_dotted_lookup :
    (∀ vars : Vars,
      interpolateString (openDelim ++ ("@app.meta.version".toList) ++ closeDelim)
        vars
        [(("app".toList : Str), Json.obj
          [(("meta".toList : Str), Json.obj
            [(("version".toList : Str), Json.str ("0.1.0".toList))])])]
        = "0.1.0".toList) ∧
    (∀ (g : Globals) (p s : Str),
      resolveGlobalPath g p = some (Json.str s) → lookupGlobal g p = some s) ∧
    (∀ (g : Globals) (p : Str) (v : Json),
      resolveGlobalPath g p = some v → (∀ s, v ≠ Json.str s) →
      lookupGlobal g p = some (renderJson v)) := by
  refine ⟨?_, ?_, ?_⟩
  · intro vars
    rw [interp_single_token _ _ (by decide)]
    rw [resolveToken_global _ _ (by decide : trimStr ("@app.meta.version".toList)
      = '@' :: ("app.meta.version".toList))]
    decide
  · intro g p s h
    rw [lookupGlobal, h]
    rfl
  · intro g p v h hneq
    rw [lookupGlobal, h]
    cases v with
    | str s => exact absurd rfl (hneq s)
    | null => rfl
    | bool b => rfl
    | num n => rfl
    | arr elems => rfl
    | obj fields => rfl

/-- Witness for C5: the dotted example resolves to the string contents, and a
numeric global renders as its compact serialization. -/
theorem global_token_dotted_lookup_witness :
    lookupGlobal
        [(("app".toList : Str), Json.obj
          [(("meta".toList : Str), Json.obj
            [(("version".toList : Str), Json.str ("0.1.0".toList))])])]
        ("app.meta.version".toList)
      = some ("0.1.0".toList) ∧
    lookupGlobal [(("port".toList : Str), Json.num 8080)] ("port".toList)
      = some (renderJson (Json.num 8080)) :=
  ⟨global_token_dotted_lookup.2.1 _ _ _ rfl,
   global_token_dotted_lookup.2.2 _ _ _ rfl (by intro s h; cases h)⟩

/-- C7: with `delete_on_success = false`, a successful dispatch records the
observed signature, and every later poll that observes the file unchanged
with that same signature performs no dispatch, so the event is delivered at
most once while the signature stays the same. -/
theorem file_source_dispatch_once :
    (∀ (lastSig : Option Sig) (o : FileTickObs) (sig : Sig) (v : Json),
      o.meta = some (true, sig) → lastSig ≠ some sig →
      o.read = some (FileContent.parsed v) → o.sendOk = true →
      fileStep false lastSig o = (true, some sig, some v)) ∧
    (∀ (s : Sig) (obs : List FileTickObs),
      (∀ o ∈ obs, o.meta = some (true, s)) →
      runFileTicks false (some s) obs = (some s, [])) := by
  constructor
  · intro lastSig o sig v hmeta hlast hread hsend
    rw [fileStep, hmeta]
    simp [hlast, hread, hsend]
  · intro s obs h
    induction obs with
    | nil => rfl
    | cons o rest ih =>
      have hm := h o (by simp)
      have hstep : fileStep false (some s) o = (true, some s, none) := by
        rw [fileStep, hm]
        simp
      rw [runFileTicks, hstep]
      have hrest := ih (fun o ho => h o (by simp [ho]))
      simp [hrest]

/-- Witness for C7: a first poll dispatches and records the signature; two
later polls with the unchanged signature dispatch nothing. -/
theorem file_source_dispatch_once_witness :
    fileStep false none ⟨some (true, (5, 7)), some (FileContent.parsed Json.null), true⟩
        = (true, some (5, 7), some Json.null) ∧
    runFileTicks false (some (5, 7))
        [⟨some (true, (5, 7)), some (FileContent.parsed Json.null), true⟩,
         ⟨some (true, (5, 7)), some FileContent.malformed, true⟩]
      = (some (5, 7), []) :=
  ⟨file_source_dispatch_once.1 none _ (5, 7) Json.null rfl (by simp) rfl rfl,
   file_source_dispatch_once.2 (5, 7) _
     (by intro o ho; simp at ho; rcases ho with h | h <;> rw [h])⟩

/-- C8: every fieldMap entry whose dotted path cannot be extracted seeds its
variable with the empty string (and extraction never fails the run: the model
is a total function); every path that resolves to a JSON string copies it
as-is, and any non-string value is rendered as its compact serialization. -/
theorem event_field_extraction (varsMap : List (Str × Str)) (event : Json)
    (nm path : Str)
    (hnd : (varsMap.map Prod.fst).Nodup)
    (hmem : (nm, path) ∈ varsMap) :
    (getJsonPath event path = none →
      lookupAssoc (varsFromEvent varsMap event) nm = some []) ∧
    (∀ v, getJsonPath event path = some v →
      lookupAssoc (varsFromEvent varsMap event) nm
        = some (jsonValueToString v)) ∧
    (∀ s, jsonValueToString (Json.str s) = s) ∧
    (∀ v, (∀ s, v ≠ Json.str s) → jsonValueToString v = renderJson v) := by
  have base := varsFromEventLoop_lookup event varsMap [] nm path hnd hmem
  refine ⟨?_, ?_, fun s => rfl, ?_⟩
  · intro hnone
    rw [varsFromEvent, base, hnone]
  · intro v hsome
    rw [varsFromEvent, base, hsome]
  · intro v hneq
    cases v with
    | str s => exact absurd rfl (hneq s)
    | null => rfl
    | bool b => rfl
    | num n => rfl
    | arr elems => rfl
    | obj fields => rfl

/-- Witness for C8: a missing path seeds the empty string while a resolving
path copies the string field, on one concrete binding and event. -/
theorem event_field_extraction_witness :
    lookupAssoc
        (varsFromEvent
          [(("missing".toList : Str), ("not.there".toList : Str)),
           (("name".toList : Str), ("user.name".toList : Str))]
          (Json.obj [(("user".toList : Str),
            Json.obj [(("name".toList : Str), Json.str ("Zied".toList))])]))
        ("missing".toList)
      = some [] ∧
    lookupAssoc
        (varsFromEvent
          [(("missing".toList : Str), ("not.there".toList : Str)),
           (("name".toList : Str), ("user.name".toList : Str))]
          (Json.obj [(("user".toList : Str),
            Json.obj [(("name".toList : Str), Json.str ("Zied".toList))])]))
        ("name".toList)
      = some (jsonValueToString (Json.str ("Zied".toList))) :=
  ⟨(event_field_extraction
      [(("missing".toList : Str), ("not.there".toList : Str)),
       (("name".toList : Str), ("user.name".toList : Str))]
      (Json.obj [(("user".toList : Str),
        Json.obj [(("name".toList : Str), Json.str ("Zied".toList))])])
      ("missing".toList) ("not.there".toList) (by decide) (by simp)).1 rfl,
   ((event_field_extraction
      [(("missing".toList : Str), ("not.there".toList : Str)),
       (("name".toList : Str), ("user.name".toList : Str))]
      (Json.obj [(("user".toList : Str),
        Json.obj [(("name".toList : Str), Json.str ("Zied".toList))])])
      ("name".toList) ("user.name".toList) (by decide) (by simp)).2.1) _ rfl⟩

/-- C9: with acknowledgements on, a line that fails JSON parsing produces
exactly one `ERROR` acknowledgement and processing continues with the
remaining lines; a later well-formed line is still dispatched with an `OK`
acknowledgement. -/
theorem tcp_error_line_keeps_connection :
    (∀ (o : LineObs) (msg : Str) (rest : List LineObs),
      trimStr o.raw ≠ [] → o.parse = Except.error msg →
      handleClient true (o :: rest)
        = (Resp.error msg :: (handleClient true rest).1,
           (handleClient true rest).2)) ∧
    (∀ (o : LineObs) (v : Json) (rest : List LineObs),
      trimStr o.raw ≠ [] → o.parse = Except.ok v → o.sendOk = true →
      o.ackWriteOk = true →
      handleClient true (o :: rest)
        = (Resp.ok :: (handleClient true rest).1,
           v :: (handleClient true rest).2)) := by
  constructor
  · intro o msg rest hraw hparse
    rw [handleClient, if_neg hraw, hparse]
    simp
  · intro o v rest hraw hparse hsend hack
    rw [handleClient, if_neg hraw, hparse]
    simp [hsend, hack]

/-- Witness for C9: a malformed line followed by a valid line yields exactly
`ERROR` then `OK`, and only the valid line's event is dispatched. -/
theorem tcp_error_line_keeps_connection_witness :
    handleClient true
        [⟨("bad".toList), Except.error ("expected value".toList), true, true⟩,
         ⟨("1".toList), Except.ok (Json.num 1), true, true⟩]
      = ([Resp.error ("expected value".toList), Resp.ok], [Json.num 1]) := by
  rw [tcp_error_line_keeps_connection.1 _ _ _ (by decide) rfl]
  rw [tcp_error_line_keeps_connection.2 _ _ _ (by decide) rfl rfl rfl]
  rfl

/-- C10: interpolation is single-pass: the output is the concatenation of
substituted pieces of a scan computed from the template alone, so substituted
text is never rescanned; concretely, a value containing a bound token's
delimiters is emitted literally and not expanded again. -/
theorem interpolation_single_pass :
    (∀ (template : Str) (vars : Vars) (globals : Globals),
      interpolateString template vars globals
        = renderPieces vars globals (parseTemplate template)) ∧
    interpolateString (openDelim ++ ['a'] ++ closeDelim)
        [((['a'] : Str), openDelim ++ ['b'] ++ closeDelim), ((['b'] : Str), ['X'])] []
      = openDelim ++ ['b'] ++ closeDelim := by
  constructor
  · intro template vars globals
    exact interp_eq_renderPieces vars globals template
  · rw [interp_single_token _ _ (by decide)]
    decide

end Notabot
